import Mathlib

/- Verification development for watchdogd (main.go): a dead man's switch
   HTTP service. The Go program is shallowly embedded: timestamps are integer
   nanoseconds since the Unix epoch (absolute instants; all times the service
   stores are UTC), strings are lists of characters, the registry map is an
   association list with Go map semantics, and the Go standard library
   behaviour the program relies on (regexp matching of the anchored key
   pattern, time.ParseDuration with its overflow checks, RFC 3339
   formatting and strict parsing with the proleptic Gregorian calendar,
   encoding/json object decoding order and partial-decode-on-error) is
   modelled definitionally below. Definitions come first, then the lemmas
   and the claim theorems. -/


/- Nat-level helpers for the Gregorian-calendar analysis -/

def gN (r : Nat) : Nat := r - r / 1460 + r / 36524 - r / 146096

def yoeFN (r : Nat) : Nat := gN r / 365

def fN (y : Nat) : Nat := 365 * y + y / 4 - y / 100

def upperN (y : Nat) : Nat := if y = 399 then 146097 else fN (y + 1)

def leapB (n : Nat) : Bool := n % 4 == 0 && (n % 100 != 0 || n % 400 == 0)

def bCheckAt (y : Nat) : Bool :=
  decide (yoeFN (fN y) = y) && decide (yoeFN (upperN y - 1) = y) &&
    decide (fN y + 365 ≤ upperN y) && decide (upperN y ≤ fN y + 366) &&
    ((upperN y - fN y == 366) == leapB (y + 1))

def bCheckLoop : Nat → Bool
  | 0 => bCheckAt 0
  | y + 1 => bCheckAt (y + 1) && bCheckLoop y

/- Int-level calendar conversions, modelling the proleptic-Gregorian conversion
   performed by the Go time package. -/

structure Date where
  year : Int
  month : Int
  day : Int
deriving DecidableEq

def cEra (z : Int) : Int := (z + 719468) / 146097

def cDoe (z : Int) : Int := z + 719468 - cEra z * 146097

def cYoe (z : Int) : Int :=
  (cDoe z - (cDoe z) / 1460 + (cDoe z) / 36524 - (cDoe z) / 146096) / 365

def cDoy (z : Int) : Int := cDoe z - (365 * cYoe z + (cYoe z) / 4 - (cYoe z) / 100)

def cMp (z : Int) : Int := (5 * cDoy z + 2) / 153

def cMonth (z : Int) : Int := cMp z + (if cMp z < 10 then 3 else -9)

def civilFromDays (z : Int) : Date :=
  ⟨cYoe z + cEra z * 400 + (if cMonth z ≤ 2 then 1 else 0),
   cMonth z,
   cDoy z - (153 * cMp z + 2) / 5 + 1⟩

def daysFromCivil (dt : Date) : Int :=
  let y := dt.year - (if dt.month ≤ 2 then 1 else 0)
  let era := y / 400
  let yoe := y - era * 400
  let doy := (153 * (dt.month + (if dt.month > 2 then -3 else 9)) + 2) / 5 + dt.day - 1
  let doe := yoe * 365 + yoe / 4 - yoe / 100 + doy
  era * 146097 + doe - 719468

def isLeapZ (y : Int) : Bool := y % 4 == 0 && (y % 100 != 0 || y % 400 == 0)

def daysInZ (y m : Int) : Int :=
  if m = 2 then (if isLeapZ y then 29 else 28)
  else if m = 4 ∨ m = 6 ∨ m = 9 ∨ m = 11 then 30 else 31

/- Timestamps are modelled as integer nanoseconds since the Unix epoch
   (the absolute instant of a Go time.Time; locations are abstracted away,
   all stored times in watchdogd are UTC). -/

def secOfNs (t : Int) : Int := t / 1000000000

def nsecOfNs (t : Int) : Int := t % 1000000000

def daysOfNs (t : Int) : Int := secOfNs t / 86400

def sodOfNs (t : Int) : Int := secOfNs t % 86400

def hourOfNs (t : Int) : Int := sodOfNs t / 3600

def minuteOfNs (t : Int) : Int := sodOfNs t % 3600 / 60

def secondOfNs (t : Int) : Int := sodOfNs t % 60

/- Decimal digit rendering shared by the time formatters. -/

def charVal (c : Char) : Nat := c.toNat - 48

def pad2 (n : Nat) : List Char := [Nat.digitChar (n / 10 % 10), Nat.digitChar (n % 10)]

def pad4 (n : Nat) : List Char :=
  [Nat.digitChar (n / 1000 % 10), Nat.digitChar (n / 100 % 10),
   Nat.digitChar (n / 10 % 10), Nat.digitChar (n % 10)]

def digitsW : Nat → Nat → List Char
  | 0, _ => []
  | w + 1, x => digitsW w (x / 10) ++ [Nat.digitChar (x % 10)]

def fracRender : Nat → Nat → List Char
  | 0, _ => []
  | w + 1, x => if x % 10 = 0 then fracRender w (x / 10) else digitsW (w + 1) x

def valDigits (l : List Char) : Nat := l.foldl (fun a c => a * 10 + charVal c) 0

def rd2 (a b : Char) : Nat := charVal a * 10 + charVal b

def rd4 (a b c d : Char) : Nat := ((charVal a * 10 + charVal b) * 10 + charVal c) * 10 + charVal d

/- RFC 3339 rendering as performed by Go time.Time.Format(RFC3339Nano) for UTC
   instants, and strict RFC 3339 parsing as performed by the Go time package
   (used by time.Time.UnmarshalJSON). -/

def fmtDateTime (t : Int) : List Char :=
  pad4 (civilFromDays (daysOfNs t)).year.toNat ++ '-' ::
    (pad2 (civilFromDays (daysOfNs t)).month.toNat ++ '-' ::
      (pad2 (civilFromDays (daysOfNs t)).day.toNat ++ 'T' ::
        (pad2 (hourOfNs t).toNat ++ ':' ::
          (pad2 (minuteOfNs t).toNat ++ ':' :: pad2 (secondOfNs t).toNat))))

def fracPart (ns : Nat) : List Char := if ns = 0 then [] else '.' :: fracRender 9 ns

def formatRFC3339 (t : Int) : List Char := fmtDateTime t ++ ['Z']

def formatRFC3339Nano (t : Int) : List Char :=
  fmtDateTime t ++ (fracPart (nsecOfNs t).toNat ++ ['Z'])

def parseFrac (l : List Char) : Option (Nat × List Char) :=
  match l with
  | c :: rest =>
    if c = '.' then
      if 1 ≤ (rest.takeWhile Char.isDigit).length ∧ (rest.takeWhile Char.isDigit).length ≤ 9 then
        some (valDigits (rest.takeWhile Char.isDigit) * 10 ^ (9 - (rest.takeWhile Char.isDigit).length),
          rest.dropWhile Char.isDigit)
      else none
    else some (0, l)
  | [] => some (0, l)

def parseOffset : List Char → Option Int
  | ['Z'] => some 0
  | [sg, a, b, ':', c, d] =>
    if (sg = '+' ∨ sg = '-') ∧ (a.isDigit && b.isDigit && c.isDigit && d.isDigit) = true then
      if rd2 a b ≤ 23 ∧ rd2 c d ≤ 59 then
        some ((if sg = '+' then 1 else -1) * ((rd2 a b : Int) * 3600 + (rd2 c d : Int) * 60))
      else none
    else none
  | _ => none

def parseRFC3339 (s : List Char) : Option Int :=
  match s with
  | y1 :: y2 :: y3 :: y4 :: '-' :: o1 :: o2 :: '-' :: d1 :: d2 :: 'T' ::
      h1 :: h2 :: ':' :: i1 :: i2 :: ':' :: e1 :: e2 :: rest =>
    if (y1.isDigit && y2.isDigit && y3.isDigit && y4.isDigit && o1.isDigit && o2.isDigit &&
        d1.isDigit && d2.isDigit && h1.isDigit && h2.isDigit && i1.isDigit && i2.isDigit &&
        e1.isDigit && e2.isDigit) = true then
      if 1 ≤ (rd2 o1 o2 : Int) ∧ (rd2 o1 o2 : Int) ≤ 12 ∧ 1 ≤ (rd2 d1 d2 : Int) ∧
          (rd2 d1 d2 : Int) ≤ daysInZ (rd4 y1 y2 y3 y4) (rd2 o1 o2) ∧
          (rd2 h1 h2 : Int) ≤ 23 ∧ (rd2 i1 i2 : Int) ≤ 59 ∧ (rd2 e1 e2 : Int) ≤ 59 then
        match parseFrac rest with
        | some (nsec, rest2) =>
          match parseOffset rest2 with
          | some off =>
            some ((daysFromCivil ⟨rd4 y1 y2 y3 y4, rd2 o1 o2, rd2 d1 d2⟩ * 86400 +
              (rd2 h1 h2 : Int) * 3600 + (rd2 i1 i2 : Int) * 60 + (rd2 e1 e2 : Int) - off) *
                1000000000 + (nsec : Int))
          | none => none
        | none => none
      else none
    else none
  | _ => none

def tsMin : Int := -62167219200000000000

def tsMax : Int := 253402300799999999999

/- Model of the anchored Go regular expression
   keyRe = ^[a-zA-Z0-9._-]+-(\d+[hms])$  (main.go line 26).
   The capture group of any anchored match is forced: the digits must be the
   maximal digit run ending just before the final unit letter, preceded by a
   literal dash, so the deterministic scan below computes exactly the
   regexp match and its submatch. -/

def isClassChar (c : Char) : Bool := c.isAlpha || c.isDigit || c = '.' || c = '_' || c = '-'

def isUnitChar (c : Char) : Bool := c = 'h' || c = 'm' || c = 's'

def keyMatch (s : List Char) : Option (List Char × Char) :=
  match s.reverse with
  | [] => none
  | u :: rest =>
    if isUnitChar u then
      if (rest.takeWhile Char.isDigit) = [] then none
      else
        match rest.dropWhile Char.isDigit with
        | c :: pre =>
          if c = '-' ∧ pre ≠ [] ∧ pre.all isClassChar then
            some ((rest.takeWhile Char.isDigit).reverse, u)
          else none
        | [] => none
    else none

/- Model of Go time.ParseDuration restricted to inputs of the shape
   digits-then-unit produced by the capture group, including the uint64
   overflow checks of leadingInt and of the unit scaling. -/

def leadingIntGo : Nat → List Char → Option Nat
  | x, [] => some x
  | x, c :: cs =>
    if x > 9223372036854775808 / 10 then none
    else
      if x * 10 + charVal c > 9223372036854775808 then none
      else leadingIntGo (x * 10 + charVal c) cs

def unitNs (u : Char) : Nat :=
  if u = 'h' then 3600000000000 else if u = 'm' then 60000000000 else 1000000000

def parseDurationGo (ds : List Char) (u : Char) : Option Nat :=
  match leadingIntGo 0 ds with
  | none => none
  | some v =>
    if v > 9223372036854775808 / unitNs u then none
    else
      if v * unitNs u > 9223372036854775808 then none
      else
        if v * unitNs u > 9223372036854775807 then none
        else some (v * unitNs u)

/- Model of parse (main.go lines 61-67): regexp match, then
   must(time.ParseDuration(...)), which panics if ParseDuration fails. -/

inductive ParseOutcome where
  | ok (d : Int)
  | invalid
  | panicked
deriving DecidableEq

def parse (key : List Char) : ParseOutcome :=
  match keyMatch key with
  | none => .invalid
  | some (ds, u) =>
    match parseDurationGo ds u with
    | some d => .ok (d : Int)
    | none => .panicked

/- The spec wording of the key pattern, written as a direct search over all
   decompositions: one or more class characters, a literal dash, an integer
   (positive when requirePos), and a unit letter, with nothing after it. -/

def splits : List Char → List (List Char × List Char)
  | [] => [([], [])]
  | c :: rest => ([], c :: rest) :: (splits rest).map (fun p => (c :: p.1, p.2))

def specSuffix (requirePos : Bool) (l : List Char) : Bool :=
  (splits l).any fun dp =>
    (!dp.1.isEmpty) && dp.1.all Char.isDigit &&
      (!requirePos || decide (0 < valDigits dp.1)) &&
      (dp.2 == ['h'] || dp.2 == ['m'] || dp.2 == ['s'])

def specKeyPat (requirePos : Bool) (s : List Char) : Bool :=
  (splits s).any fun lp =>
    (!lp.1.isEmpty) && lp.1.all isClassChar &&
      match lp.2 with
      | c :: rest => c == '-' && specSuffix requirePos rest
      | [] => false

def valFrom (x : Nat) (l : List Char) : Nat := l.foldl (fun a c => a * 10 + charVal c) x

/- Registry model: the Go map checkins (main.go line 25), as an association
   list with Go map semantics (set overwrites, get of a missing key yields
   the zero value). -/

abbrev RegistryMap := List (List Char × Int)

def mapGet : RegistryMap → List Char → Option Int
  | [], _ => none
  | (k, v) :: rest, key => if k = key then some v else mapGet rest key

def mapSet : RegistryMap → List Char → Int → RegistryMap
  | [], key, t => [(key, t)]
  | (k, v) :: rest, key, t => if k = key then (k, t) :: rest else (k, v) :: mapSet rest key t

/- The zero Go time.Time (January 1, year 1, 00:00:00 UTC) in nanoseconds
   since the Unix epoch: the value a map lookup yields for an absent key. -/

def goZeroTimeNs : Int := -62135596800000000000

def lookupGo (st : RegistryMap) (key : List Char) : Int := (mapGet st key).getD goZeroTimeNs

/- Verdicts and the status evaluation of printStatus (main.go lines 139-152). -/

inductive Verdict where
  | OKAY
  | ALARM
  | NEVER
deriving DecidableEq

def evaluate (window lastSeen now : Int) : Verdict :=
  if lastSeen = goZeroTimeNs then .NEVER
  else if now - lastSeen > window then .ALARM else .OKAY

def verdictWord : Verdict → List Char
  | .OKAY => "OKAY".data
  | .ALARM => "ALARM".data
  | .NEVER => "NEVER".data

/- Model of the fmt %.0f directive applied to the exact rational
   since/unit: round to nearest, ties to even, rendered in decimal.
   The float64 detour of the Go code is abstracted as exact arithmetic. -/

def roundHalfEven (num den : Int) : Int :=
  if 2 * (num % den) < den then num / den
  else if 2 * (num % den) > den then num / den + 1
  else if (num / den) % 2 = 0 then num / den else num / den + 1

def intDec (n : Int) : List Char :=
  if n < 0 then '-' :: (Nat.toDigits 10 n.natAbs) else Nat.toDigits 10 n.toNat

def fmtF0 (num den : Int) : List Char := intDec (roundHalfEven num den)

/- printStatus (main.go lines 139-152): renders one status line. -/

def printStatus (key : List Char) (dur lastCheckin now : Int) : List Char :=
  match evaluate dur lastCheckin now with
  | .NEVER => key ++ (' ' :: ("NEVER ALARM".data ++ ['\n']))
  | v =>
    key ++ ' ' :: (formatRFC3339 lastCheckin ++ ' ' ::
      (fmtF0 (now - lastCheckin) 3600000000000 ++ 'h' :: ' ' ::
        (fmtF0 (now - lastCheckin) 60000000000 ++ 'm' :: ' ' ::
          (fmtF0 (now - lastCheckin) 1000000000 ++ 's' :: ' ' ::
            (verdictWord v ++ ['\n'])))))

/- authMiddleware (main.go lines 69-90). A missing header or query parameter
   is the empty string, exactly as Header.Get and Query().Get yield. -/

inductive AuthResult where
  | badRequest
  | unauthorized
  | passed
deriving DecidableEq

def constantTimeCompare (a b : List Char) : Bool := a == b

def dropLit : List Char → List Char → Option (List Char)
  | [], l => some l
  | _ :: _, [] => none
  | p :: ps, c :: cs => if p = c then dropLit ps cs else none

def bearerTag : List Char := "Bearer ".data

def authMiddleware (authToken authHeader queryToken : List Char) : AuthResult :=
  if authHeader = [] then
    if constantTimeCompare authToken queryToken then .passed else .unauthorized
  else
    match dropLit bearerTag authHeader with
    | none => .badRequest
    | some tok => if constantTimeCompare authToken tok then .passed else .unauthorized

/- checkinHandler (main.go lines 92-106), statusHandler (108-123) and the
   per-key work of listHandler (125-137). -/

inductive CheckinResponse where
  | noContent
  | invalidKey
  | panicked
deriving DecidableEq

structure CheckinResult where
  response : CheckinResponse
  state : RegistryMap
  saveTriggered : Bool
deriving DecidableEq

def checkinHandler (st : RegistryMap) (key : List Char) (now : Int) : CheckinResult :=
  match parse key with
  | .invalid => ⟨.invalidKey, st, false⟩
  | .panicked => ⟨.panicked, st, false⟩
  | .ok _ => ⟨.noContent, mapSet st key now, true⟩

inductive StatusResponse where
  | invalidKey
  | panicked
  | body (line : List Char)
deriving DecidableEq

def statusHandler (st : RegistryMap) (key : List Char) (now : Int) : StatusResponse :=
  match parse key with
  | .invalid => .invalidKey
  | .panicked => .panicked
  | .ok dur => .body (printStatus key dur (lookupGo st key) now)

def listDur (key : List Char) : Int :=
  match parse key with
  | .ok d => d
  | _ => 0

def listLines (st : RegistryMap) (now : Int) : List (List Char) :=
  st.map fun kv => printStatus kv.1 (listDur kv.1) kv.2 now

def applyCheckins (ops : List (List Char × Int)) (st : RegistryMap) : RegistryMap :=
  ops.foldl (fun acc op => (checkinHandler acc op.1 op.2).state) st

/- PersistenceGateway model. load (main.go lines 29-44) reads the file and
   json.Unmarshal-s it into the (initially empty) map; save (main.go lines
   46-59) marshals a clone of the map with keys sorted, each timestamp
   rendered by time.Time.MarshalJSON (RFC3339Nano). A syntactically invalid
   document decodes nothing; a well-formed object decodes entries in order
   and stops at the first value whose UnmarshalJSON fails, keeping the
   entries decoded before it (encoding/json behaviour). -/

inductive FileContent where
  | malformedSyntax
  | object (entries : List (List Char × List Char))

inductive ReadResult where
  | notExist
  | ioFault
  | okRead (content : FileContent)

inductive LoadNote where
  | freshInfo
  | corruptWarn
  | cleanLoad
deriving DecidableEq

inductive LoadOutcome where
  | fatalExit
  | started (st : RegistryMap) (note : LoadNote)
deriving DecidableEq

def unmarshalObject : RegistryMap → List (List Char × List Char) → RegistryMap × Bool
  | m, [] => (m, false)
  | m, (k, v) :: rest =>
    match parseRFC3339 v with
    | some t => unmarshalObject (mapSet m k t) rest
    | none => (m, true)

def load (r : ReadResult) : LoadOutcome :=
  match r with
  | .notExist => .started [] .freshInfo
  | .ioFault => .fatalExit
  | .okRead .malformedSyntax => .started [] .corruptWarn
  | .okRead (.object es) =>
    if (unmarshalObject [] es).2 then .started (unmarshalObject [] es).1 .corruptWarn
    else .started (unmarshalObject [] es).1 .cleanLoad

def keyLe : List Char → List Char → Bool
  | [], _ => true
  | _ :: _, [] => false
  | a :: as, b :: bs => if a = b then keyLe as bs else decide (a < b)

def sortByKey (m : RegistryMap) : RegistryMap :=
  List.insertionSort (fun p q => keyLe p.1 q.1 = true) m

def save (m : RegistryMap) : List (List Char × List Char) :=
  (sortByKey m).map fun kv => (kv.1, formatRFC3339Nano kv.2)

set_option maxRecDepth 4000 in
theorem bCheckLoop_true : bCheckLoop 399 = true := by decide

theorem bCheckLoop_spec : ∀ n, bCheckLoop n = true → ∀ y, y ≤ n → bCheckAt y = true := by
  intro n
  induction n with
  | zero => intro h y hy; interval_cases y; exact h
  | succ n ih =>
    intro h y hy
    rw [bCheckLoop, Bool.and_eq_true] at h
    rcases Nat.lt_or_ge y (n + 1) with hc | hc
    · exact ih h.2 y (by omega)
    · have : y = n + 1 := by omega
      subst this; exact h.1

theorem bCheckAt_parts (y : Nat) (hy : y ≤ 399) :
    yoeFN (fN y) = y ∧ yoeFN (upperN y - 1) = y ∧ fN y + 365 ≤ upperN y ∧
      upperN y ≤ fN y + 366 ∧ ((upperN y - fN y = 366) ↔ leapB (y + 1) = true) := by
  have h := bCheckLoop_spec 399 bCheckLoop_true y hy
  unfold bCheckAt at h
  simp only [Bool.and_eq_true, decide_eq_true_eq, beq_iff_eq] at h
  obtain ⟨⟨⟨⟨h1, h2⟩, h3⟩, h4⟩, h5⟩ := h
  refine ⟨h1, h2, h3, h4, ?_⟩
  constructor
  · intro he
    have he' : (upperN y - fN y == 366) = true := by simp [he]
    rw [he'] at h5; exact h5.symm
  · intro hl
    rw [← h5] at hl
    simpa using hl

theorem gN_step (r : Nat) : gN r ≤ gN (r + 1) := by
  unfold gN; omega

theorem gN_mono {r s : Nat} (h : r ≤ s) : gN r ≤ gN s := by
  induction s with
  | zero =>
    have h0 : r = 0 := by omega
    subst h0; exact Nat.le_refl _
  | succ s ih =>
    rcases Nat.lt_or_ge r (s + 1) with hc | hc
    · exact Nat.le_trans (ih (by omega)) (gN_step s)
    · have h1 : r = s + 1 := by omega
      subst h1; exact Nat.le_refl _

theorem yoeFN_mono {r s : Nat} (h : r ≤ s) : yoeFN r ≤ yoeFN s :=
  Nat.div_le_div_right (gN_mono h)

theorem calendarFacts (r : Nat) (hr : r ≤ 146096) :
    yoeFN r ≤ 399 ∧ fN (yoeFN r) ≤ r ∧ r - fN (yoeFN r) ≤ 365 ∧
      (r - fN (yoeFN r) = 365 → leapB (yoeFN r + 1) = true) := by
  have h399 := bCheckAt_parts 399 (Nat.le_refl _)
  have hup399 : upperN 399 = 146097 := by unfold upperN; simp
  have hyle : yoeFN r ≤ 399 := by
    have hm : yoeFN r ≤ yoeFN (upperN 399 - 1) := by
      apply yoeFN_mono; rw [hup399]; omega
    rw [h399.2.1] at hm; exact hm
  have hparts := bCheckAt_parts (yoeFN r) hyle
  have hf0 : fN 0 = 0 := by decide
  have hfle : fN (yoeFN r) ≤ r := by
    by_contra hlt
    push_neg at hlt
    have hy1 : 1 ≤ yoeFN r := by
      by_contra h0
      push_neg at h0
      have h00 : yoeFN r = 0 := by omega
      rw [h00, hf0] at hlt
      omega
    have hprev := bCheckAt_parts (yoeFN r - 1) (by omega)
    have hupprev : upperN (yoeFN r - 1) = fN (yoeFN r) := by
      unfold upperN
      rw [if_neg (by omega)]
      congr 1
      omega
    have hm : yoeFN r ≤ yoeFN (upperN (yoeFN r - 1) - 1) := by
      apply yoeFN_mono; rw [hupprev]; omega
    rw [hprev.2.1] at hm
    omega
  have hrup : r < upperN (yoeFN r) := by
    by_contra hge
    push_neg at hge
    by_cases he : yoeFN r = 399
    · rw [he, hup399] at hge; omega
    · have hy1 : yoeFN r + 1 ≤ 399 := by omega
      have hnext := bCheckAt_parts (yoeFN r + 1) hy1
      have hupeq : upperN (yoeFN r) = fN (yoeFN r + 1) := by
        unfold upperN; rw [if_neg he]
      have hm : yoeFN r + 1 ≤ yoeFN r := by
        conv_lhs => rw [← hnext.1]
        apply yoeFN_mono
        rw [← hupeq]; exact hge
      omega
  have hub : upperN (yoeFN r) ≤ fN (yoeFN r) + 366 := hparts.2.2.2.1
  refine ⟨hyle, hfle, by omega, ?_⟩
  intro h365
  have h366 : upperN (yoeFN r) - fN (yoeFN r) = 366 := by omega
  exact (hparts.2.2.2.2).1 h366

theorem isLeapZ_iff (y : Int) :
    isLeapZ y = true ↔ (y % 4 = 0 ∧ (y % 100 ≠ 0 ∨ y % 400 = 0)) := by
  unfold isLeapZ
  simp [Bool.and_eq_true, Bool.or_eq_true, beq_iff_eq, bne_iff_ne]

theorem leapB_iff (n : Nat) :
    leapB n = true ↔ (n % 4 = 0 ∧ (n % 100 ≠ 0 ∨ n % 400 = 0)) := by
  unfold leapB
  simp [Bool.and_eq_true, Bool.or_eq_true, beq_iff_eq, bne_iff_ne]

/- Bridging from the Int computation to the checked Nat facts. -/

theorem cDoe_bounds (z : Int) : 0 ≤ cDoe z ∧ cDoe z < 146097 := by
  unfold cDoe cEra
  omega

theorem cDoe_toNat (z : Int) : ((cDoe z).toNat : Int) = cDoe z :=
  Int.toNat_of_nonneg (cDoe_bounds z).1

theorem cYoe_eq (z : Int) : cYoe z = (yoeFN (cDoe z).toNat : Int) := by
  have h := cDoe_toNat z
  unfold cYoe yoeFN gN
  omega

theorem cDoy_eq (z : Int) : cDoy z = (cDoe z).toNat - (fN (yoeFN (cDoe z).toNat) : Int) := by
  have h := cDoe_toNat z
  have hy := cYoe_eq z
  have hfacts := calendarFacts (cDoe z).toNat (by have := cDoe_bounds z; omega)
  unfold fN at hfacts ⊢
  unfold cDoy
  rw [hy]
  omega

theorem cDoy_bounds (z : Int) : 0 ≤ cDoy z ∧ cDoy z ≤ 365 := by
  have h := cDoe_toNat z
  have hd := cDoy_eq z
  have hfacts := calendarFacts (cDoe z).toNat (by have := cDoe_bounds z; omega)
  omega

theorem cMp_bounds (z : Int) : 0 ≤ cMp z ∧ cMp z ≤ 11 := by
  have hd := cDoy_bounds z
  unfold cMp
  omega

theorem daysFromCivil_civilFromDays (z : Int) : daysFromCivil (civilFromDays z) = z := by
  have hdoe := cDoe_bounds z
  have hy := cYoe_eq z
  have hfacts := calendarFacts (cDoe z).toNat (by omega)
  have hyoe0 : 0 ≤ cYoe z := by rw [hy]; omega
  have hyoe399 : cYoe z ≤ 399 := by rw [hy]; exact_mod_cast hfacts.1
  have hdoy := cDoy_bounds z
  have hmp := cMp_bounds z
  have hdoerec : cDoe z = z + 719468 - cEra z * 146097 := by unfold cDoe; rfl
  have heradef : cEra z = (z + 719468) / 146097 := rfl
  unfold civilFromDays daysFromCivil
  simp only
  unfold cMonth
  simp only [add_sub_cancel_right]
  have ha : (cYoe z + cEra z * 400) / 400 = cEra z := by omega
  rw [ha]
  simp only [add_sub_cancel_right]
  unfold cDoy at hdoy ⊢
  split_ifs <;> (try simp only [add_neg_cancel_right, neg_add_cancel_right]) <;> omega

theorem civilFromDays_valid (z : Int) :
    1 ≤ (civilFromDays z).month ∧ (civilFromDays z).month ≤ 12 ∧
      1 ≤ (civilFromDays z).day ∧
      (civilFromDays z).day ≤ daysInZ (civilFromDays z).year (civilFromDays z).month := by
  have hdoe := cDoe_bounds z
  have hy := cYoe_eq z
  have hfacts := calendarFacts (cDoe z).toNat (by omega)
  have hleap := hfacts.2.2.2
  rw [leapB_iff] at hleap
  have hyoe0 : 0 ≤ cYoe z := by rw [hy]; omega
  have hyoe399 : cYoe z ≤ 399 := by rw [hy]; exact_mod_cast hfacts.1
  have hdoyeq := cDoy_eq z
  have hdoy := cDoy_bounds z
  have hmp := cMp_bounds z
  have hmpdef : cMp z = (5 * cDoy z + 2) / 153 := rfl
  have htn := cDoe_toNat z
  unfold civilFromDays daysInZ
  simp only
  unfold cMonth
  split_ifs <;>
    first
      | omega
      | (rename_i hL
         rw [isLeapZ_iff] at hL
         omega)

theorem daysInZ_le_31 (y m : Int) : daysInZ y m ≤ 31 := by
  unfold daysInZ
  split_ifs <;> omega

theorem daysInZ_pos (y m : Int) : 1 ≤ daysInZ y m := by
  unfold daysInZ
  split_ifs <;> omega

theorem daysFromCivil_big (dt : Date) (hy : 10000 ≤ dt.year)
    (hm : 1 ≤ dt.month ∧ dt.month ≤ 12) (hd : 1 ≤ dt.day ∧ dt.day ≤ 31) :
    2932897 ≤ daysFromCivil dt := by
  unfold daysFromCivil
  simp only
  split_ifs <;> omega

theorem daysFromCivil_small (dt : Date) (hy : dt.year ≤ -1)
    (hm : 1 ≤ dt.month ∧ dt.month ≤ 12) (hd : 1 ≤ dt.day ∧ dt.day ≤ 31) :
    daysFromCivil dt ≤ -719529 := by
  unfold daysFromCivil
  simp only
  split_ifs <;> omega

theorem civil_year_range (z : Int) (h0 : -719528 ≤ z) (h1 : z ≤ 2932896) :
    0 ≤ (civilFromDays z).year ∧ (civilFromDays z).year ≤ 9999 := by
  have hv := civilFromDays_valid z
  have hinv := daysFromCivil_civilFromDays z
  have h31 : (civilFromDays z).day ≤ 31 :=
    le_trans hv.2.2.2 (daysInZ_le_31 _ _)
  constructor
  · by_contra hlt
    push_neg at hlt
    have := daysFromCivil_small (civilFromDays z) (by omega) ⟨hv.1, hv.2.1⟩ ⟨hv.2.2.1, h31⟩
    omega
  · by_contra hgt
    push_neg at hgt
    have := daysFromCivil_big (civilFromDays z) (by omega) ⟨hv.1, hv.2.1⟩ ⟨hv.2.2.1, h31⟩
    omega

theorem digitChar_isDigit (d : Nat) (h : d < 10) : (Nat.digitChar d).isDigit = true := by
  interval_cases d <;> decide

theorem charVal_digitChar (d : Nat) (h : d < 10) : charVal (Nat.digitChar d) = d := by
  interval_cases d <;> decide

theorem rd2_pad (n : Nat) (h : n < 100) :
    rd2 (Nat.digitChar (n / 10 % 10)) (Nat.digitChar (n % 10)) = n := by
  unfold rd2
  rw [charVal_digitChar _ (by omega), charVal_digitChar _ (by omega)]
  omega

theorem rd4_pad (n : Nat) (h : n < 10000) :
    rd4 (Nat.digitChar (n / 1000 % 10)) (Nat.digitChar (n / 100 % 10))
      (Nat.digitChar (n / 10 % 10)) (Nat.digitChar (n % 10)) = n := by
  unfold rd4
  rw [charVal_digitChar _ (by omega), charVal_digitChar _ (by omega),
    charVal_digitChar _ (by omega), charVal_digitChar _ (by omega)]
  omega

theorem valDigits_append (l : List Char) (c : Char) :
    valDigits (l ++ [c]) = valDigits l * 10 + charVal c := by
  unfold valDigits
  rw [List.foldl_append]
  rfl

theorem digitsW_length (w x : Nat) : (digitsW w x).length = w := by
  induction w generalizing x with
  | zero => rfl
  | succ w ih =>
    unfold digitsW
    rw [List.length_append, ih]
    rfl

theorem digitsW_digits (w x : Nat) : ∀ c ∈ digitsW w x, c.isDigit = true := by
  induction w generalizing x with
  | zero => intro c hc; cases hc
  | succ w ih =>
    intro c hc
    unfold digitsW at hc
    rw [List.mem_append] at hc
    rcases hc with hc | hc
    · exact ih _ c hc
    · rw [List.mem_singleton] at hc
      subst hc
      exact digitChar_isDigit _ (by omega)

theorem digitsW_val (w x : Nat) (h : x < 10 ^ w) : valDigits (digitsW w x) = x := by
  induction w generalizing x with
  | zero =>
    have : x = 0 := by simpa using h
    subst this; rfl
  | succ w ih =>
    unfold digitsW
    rw [valDigits_append, ih _ (by rw [pow_succ] at h; omega), charVal_digitChar _ (by omega)]
    omega

theorem fracRender_spec (w x : Nat) (hx : x < 10 ^ w) (hnz : x ≠ 0) :
    1 ≤ (fracRender w x).length ∧ (fracRender w x).length ≤ w ∧
      (∀ c ∈ fracRender w x, c.isDigit = true) ∧
      valDigits (fracRender w x) * 10 ^ (w - (fracRender w x).length) = x := by
  induction w generalizing x with
  | zero => omega
  | succ w ih =>
    unfold fracRender
    by_cases h10 : x % 10 = 0
    · rw [if_pos h10]
      have hx10 : x / 10 < 10 ^ w := by rw [pow_succ] at hx; omega
      have hnz10 : x / 10 ≠ 0 := by omega
      obtain ⟨i1, i2, i3, i4⟩ := ih (x / 10) hx10 hnz10
      refine ⟨i1, by omega, i3, ?_⟩
      have hsub : w + 1 - (fracRender w (x / 10)).length = (w - (fracRender w (x / 10)).length) + 1 := by
        omega
      rw [hsub, pow_succ, ← Nat.mul_assoc, i4]
      omega
    · rw [if_neg h10]
      rw [digitsW_length]
      refine ⟨by omega, Nat.le_refl _, digitsW_digits _ _, ?_⟩
      rw [digitsW_val _ _ hx]
      simp

theorem takeWhile_all_append (p : Char → Bool) (l : List Char) (rest : List Char)
    (hl : ∀ c ∈ l, p c = true) (hr : ∀ c, rest.head? = some c → p c = false) :
    (l ++ rest).takeWhile p = l ∧ (l ++ rest).dropWhile p = rest := by
  induction l with
  | nil =>
    simp only [List.nil_append]
    cases rest with
    | nil => exact ⟨rfl, rfl⟩
    | cons c cs =>
      have := hr c rfl
      constructor
      · rw [List.takeWhile_cons, this]
        simp
      · rw [List.dropWhile_cons, this]
        simp
  | cons a l ih =>
    have ha : p a = true := hl a (List.mem_cons_self a l)
    obtain ⟨t1, t2⟩ := ih (fun c hc => hl c (List.mem_cons_of_mem a hc))
    constructor
    · rw [List.cons_append, List.takeWhile_cons, ha, t1]
      simp
    · rw [List.cons_append, List.dropWhile_cons, ha, t2]
      simp

theorem digitChar_mod10_isDigit (n : Nat) : (Nat.digitChar (n % 10)).isDigit = true :=
  digitChar_isDigit _ (Nat.mod_lt _ (by norm_num))

theorem parseFrac_Z : parseFrac ['Z'] = some (0, ['Z']) := rfl

theorem parseOffset_Z : parseOffset ['Z'] = some 0 := rfl

theorem parseFrac_frac (ns : Nat) (h9 : ns < 1000000000) (hnz : ns ≠ 0) :
    parseFrac ('.' :: (fracRender 9 ns ++ ['Z'])) = some (ns, ['Z']) := by
  obtain ⟨f1, f2, f3, f4⟩ := fracRender_spec 9 ns (by norm_num; omega) hnz
  obtain ⟨ht, hd⟩ := takeWhile_all_append Char.isDigit (fracRender 9 ns) ['Z'] f3
    (by intro c hc
        simp only [List.head?] at hc
        cases hc
        decide)
  unfold parseFrac
  simp only [if_pos rfl]
  rw [ht, hd, f4]
  simp [f1, f2]

theorem fracPart_zero : fracPart 0 = [] := rfl

theorem fracPart_pos (ns : Nat) (h : ns ≠ 0) : fracPart ns = '.' :: fracRender 9 ns := by
  unfold fracPart
  rw [if_neg h]

theorem parse_format_roundtrip (t : Int) (hlo : tsMin ≤ t) (hhi : t ≤ tsMax) :
    parseRFC3339 (formatRFC3339Nano t) = some t := by
  have hzlo : -719528 ≤ daysOfNs t := by unfold daysOfNs secOfNs tsMin at *; omega
  have hzhi : daysOfNs t ≤ 2932896 := by unfold daysOfNs secOfNs tsMax at *; omega
  have hyr := civil_year_range (daysOfNs t) hzlo hzhi
  have hv := civilFromDays_valid (daysOfNs t)
  have h31 : (civilFromDays (daysOfNs t)).day ≤ 31 :=
    le_trans hv.2.2.2 (daysInZ_le_31 _ _)
  have hh : 0 ≤ hourOfNs t ∧ hourOfNs t ≤ 23 := by unfold hourOfNs sodOfNs secOfNs; omega
  have hmi : 0 ≤ minuteOfNs t ∧ minuteOfNs t ≤ 59 := by unfold minuteOfNs sodOfNs secOfNs; omega
  have hse : 0 ≤ secondOfNs t ∧ secondOfNs t ≤ 59 := by unfold secondOfNs sodOfNs secOfNs; omega
  have hns : 0 ≤ nsecOfNs t ∧ nsecOfNs t < 1000000000 := by unfold nsecOfNs; omega
  unfold formatRFC3339Nano fmtDateTime pad4 pad2
  simp only [List.cons_append, List.nil_append]
  unfold parseRFC3339
  simp only [digitChar_mod10_isDigit, Bool.and_self, if_pos]
  rw [rd4_pad _ (by omega), rd2_pad (civilFromDays (daysOfNs t)).month.toNat (by omega),
    rd2_pad (civilFromDays (daysOfNs t)).day.toNat (by omega),
    rd2_pad (hourOfNs t).toNat (by omega), rd2_pad (minuteOfNs t).toNat (by omega),
    rd2_pad (secondOfNs t).toNat (by omega)]
  rw [Int.toNat_of_nonneg hyr.1, Int.toNat_of_nonneg (by omega : (0:Int) ≤ (civilFromDays (daysOfNs t)).month),
    Int.toNat_of_nonneg (by omega : (0:Int) ≤ (civilFromDays (daysOfNs t)).day),
    Int.toNat_of_nonneg hh.1, Int.toNat_of_nonneg hmi.1, Int.toNat_of_nonneg hse.1]
  rw [if_pos ⟨hv.1, hv.2.1, hv.2.2.1, hv.2.2.2, hh.2, hmi.2, hse.2⟩]
  have heta : (⟨(civilFromDays (daysOfNs t)).year, (civilFromDays (daysOfNs t)).month,
      (civilFromDays (daysOfNs t)).day⟩ : Date) = civilFromDays (daysOfNs t) := rfl
  rw [heta, daysFromCivil_civilFromDays]
  by_cases hz0 : (nsecOfNs t).toNat = 0
  · rw [hz0, fracPart_zero, List.nil_append, parseFrac_Z]
    simp only [parseOffset_Z, Option.some.injEq]
    unfold daysOfNs hourOfNs minuteOfNs secondOfNs sodOfNs nsecOfNs secOfNs at *
    omega
  · rw [fracPart_pos _ hz0, List.cons_append, parseFrac_frac _ (by omega) hz0]
    simp only [parseOffset_Z, Option.some.injEq]
    unfold daysOfNs hourOfNs minuteOfNs secondOfNs sodOfNs nsecOfNs secOfNs at *
    omega

theorem splits_spec (s : List Char) :
    ∀ p, p ∈ splits s ↔ p.1 ++ p.2 = s := by
  induction s with
  | nil =>
    intro p
    constructor
    · intro hp
      simp only [splits, List.mem_singleton] at hp
      subst hp; rfl
    · intro hp
      simp only [splits, List.mem_singleton]
      cases p with
      | mk a b =>
        cases a with
        | nil => simp at hp ⊢; exact hp
        | cons x xs => simp at hp
  | cons c rest ih =>
    intro p
    constructor
    · intro hp
      simp only [splits, List.mem_cons, List.mem_map] at hp
      rcases hp with hp | ⟨q, hq, hqp⟩
      · subst hp; rfl
      · subst hqp
        simp only [List.cons_append, List.cons.injEq, true_and]
        exact (ih q).1 hq
    · intro hp
      simp only [splits, List.mem_cons, List.mem_map]
      cases p with
      | mk a b =>
        cases a with
        | nil =>
          left
          simp only [List.nil_append] at hp
          rw [hp]
        | cons x xs =>
          right
          simp only [List.cons_append, List.cons.injEq] at hp
          refine ⟨(xs, b), (ih (xs, b)).2 hp.2, ?_⟩
          rw [hp.1]

theorem keyMatch_sound (s ds : List Char) (u : Char) (h : keyMatch s = some (ds, u)) :
    ∃ pre, s = pre ++ '-' :: (ds ++ [u]) ∧ pre ≠ [] ∧ pre.all isClassChar = true ∧
      ds ≠ [] ∧ ds.all Char.isDigit = true ∧ isUnitChar u = true := by
  unfold keyMatch at h
  split at h
  · exact absurd h (by simp)
  rename_i u' rest hrev
  split_ifs at h with hu htw
  split at h
  · rename_i c pre hdrop
    split_ifs at h with hc
    obtain ⟨hc1, hc2, hc3⟩ := hc
    injection h with h'
    injection h' with hds hu'
    subst hc1
    subst hu'
    refine ⟨pre.reverse, ?_, by simpa using hc2, by rw [List.all_reverse]; exact hc3, ?_, ?_, hu⟩
    · have hs : s = s.reverse.reverse := (List.reverse_reverse s).symm
      rw [hs, hrev]
      have hrest : rest = rest.takeWhile Char.isDigit ++ rest.dropWhile Char.isDigit :=
        (List.takeWhile_append_dropWhile Char.isDigit rest).symm
      rw [List.reverse_cons, hrest, hdrop, ← hds]
      simp [List.reverse_append]
    · rw [← hds]
      simpa using htw
    · rw [← hds, List.all_reverse, List.all_eq_true]
      intro c' hc'
      exact List.mem_takeWhile_imp hc'
  · exact absurd h (by simp)

theorem keyMatch_complete (pre ds : List Char) (u : Char) (hpre : pre ≠ [])
    (hcls : pre.all isClassChar = true) (hds : ds ≠ []) (hdig : ds.all Char.isDigit = true)
    (hu : isUnitChar u = true) :
    keyMatch (pre ++ '-' :: (ds ++ [u])) = some (ds, u) := by
  have hrev : (pre ++ '-' :: (ds ++ [u])).reverse = u :: (ds.reverse ++ '-' :: pre.reverse) := by
    simp [List.reverse_append]
  have hTD := takeWhile_all_append Char.isDigit ds.reverse ('-' :: pre.reverse)
    (by rw [← List.all_eq_true, List.all_reverse]; exact hdig)
    (by intro c hc
        simp only [List.head?] at hc
        injection hc with hc
        subst hc
        decide)
  unfold keyMatch
  split
  · rename_i heq
    rw [hrev] at heq
    simp at heq
  · rename_i u' rest heq
    rw [hrev] at heq
    injection heq with h1 h2
    subst h1
    subst h2
    rw [if_pos hu, hTD.1, hTD.2]
    rw [if_neg (by simpa using hds)]
    split
    · rename_i c pre' heq2
      injection heq2 with h3 h4
      subst h3
      subst h4
      rw [if_pos ⟨rfl, by simpa using hpre, by rw [List.all_reverse]; exact hcls⟩]
      rw [List.reverse_reverse]
    · rename_i heq2
      simp at heq2

theorem isUnitChar_cases (u : Char) (h : isUnitChar u = true) : u = 'h' ∨ u = 'm' ∨ u = 's' := by
  unfold isUnitChar at h
  simpa [or_assoc] using h

theorem specSuffix_iff (b : Bool) (l : List Char) :
    specSuffix b l = true ↔
      ∃ ds u, l = ds ++ [u] ∧ ds ≠ [] ∧ ds.all Char.isDigit = true ∧
        (b = true → 0 < valDigits ds) ∧ isUnitChar u = true := by
  unfold specSuffix
  rw [List.any_eq_true]
  constructor
  · rintro ⟨dp, hmem, hcond⟩
    have hsplit := (splits_spec l dp).1 hmem
    simp only [Bool.and_eq_true] at hcond
    obtain ⟨⟨⟨ha, hb⟩, hc⟩, hd⟩ := hcond
    have ha' : dp.1 ≠ [] := by simpa using ha
    have hd' : dp.2 = ['h'] ∨ dp.2 = ['m'] ∨ dp.2 = ['s'] := by
      simpa [Bool.or_eq_true, beq_iff_eq, or_assoc] using hd
    have hpos : b = true → 0 < valDigits dp.1 := by
      intro hbt
      rw [hbt] at hc
      simpa using hc
    rcases hd' with h2 | h2 | h2
    · exact ⟨dp.1, 'h', by rw [← hsplit, h2], ha', hb, hpos, by decide⟩
    · exact ⟨dp.1, 'm', by rw [← hsplit, h2], ha', hb, hpos, by decide⟩
    · exact ⟨dp.1, 's', by rw [← hsplit, h2], ha', hb, hpos, by decide⟩
  · rintro ⟨ds, u, hl, hne, hdig, hpos, hu⟩
    refine ⟨(ds, [u]), (splits_spec l (ds, [u])).2 hl.symm, ?_⟩
    simp only [Bool.and_eq_true]
    refine ⟨⟨⟨by simpa using hne, hdig⟩, ?_⟩, ?_⟩
    · cases b with
      | false => rfl
      | true =>
        simp only [Bool.not_true, Bool.false_or, decide_eq_true_eq]
        exact hpos rfl
    · rcases isUnitChar_cases u hu with h2 | h2 | h2 <;> subst h2 <;> decide

theorem specKeyPat_iff (b : Bool) (s : List Char) :
    specKeyPat b s = true ↔
      ∃ pre ds u, s = pre ++ '-' :: (ds ++ [u]) ∧ pre ≠ [] ∧ pre.all isClassChar = true ∧
        ds ≠ [] ∧ ds.all Char.isDigit = true ∧ (b = true → 0 < valDigits ds) ∧
        isUnitChar u = true := by
  unfold specKeyPat
  rw [List.any_eq_true]
  constructor
  · rintro ⟨lp, hmem, hcond⟩
    have hsplit := (splits_spec s lp).1 hmem
    rcases hlp : lp.2 with _ | ⟨c, tail⟩
    · rw [hlp] at hcond
      simp at hcond
    · rw [hlp] at hcond
      simp only [Bool.and_eq_true, beq_iff_eq] at hcond
      obtain ⟨⟨ha, hb⟩, hc, hsfx⟩ := hcond
      obtain ⟨ds, u, htail, hne, hdig, hpos, hu⟩ := (specSuffix_iff b tail).1 hsfx
      subst hc
      refine ⟨lp.1, ds, u, ?_, by simpa using ha, hb, hne, hdig, hpos, hu⟩
      rw [← hsplit, hlp, htail]
  · rintro ⟨pre, ds, u, hs, hpre, hcls, hne, hdig, hpos, hu⟩
    refine ⟨(pre, '-' :: (ds ++ [u])), (splits_spec s (pre, '-' :: (ds ++ [u]))).2 hs.symm, ?_⟩
    simp only [Bool.and_eq_true, beq_iff_eq]
    exact ⟨⟨by simpa using hpre, hcls⟩, trivial, (specSuffix_iff b (ds ++ [u])).2 ⟨ds, u, rfl, hne, hdig, hpos, hu⟩⟩

theorem keyMatch_iff_pat (s : List Char) :
    (∃ p, keyMatch s = some p) ↔ specKeyPat false s = true := by
  constructor
  · rintro ⟨⟨ds, u⟩, hm⟩
    obtain ⟨pre, hs, hpre, hcls, hne, hdig, hu⟩ := keyMatch_sound s ds u hm
    refine (specKeyPat_iff false s).2 ⟨pre, ds, u, hs, hpre, hcls, hne, hdig, ?_, hu⟩
    intro hx
    cases hx
  · intro hp
    obtain ⟨pre, ds, u, hs, hpre, hcls, hne, hdig, _, hu⟩ := (specKeyPat_iff false s).1 hp
    exact ⟨(ds, u), by rw [hs]; exact keyMatch_complete pre ds u hpre hcls hne hdig hu⟩

theorem valFrom_ge (l : List Char) : ∀ x, x ≤ valFrom x l := by
  induction l with
  | nil => intro x; exact Nat.le_refl x
  | cons c cs ih =>
    intro x
    have hstep : valFrom x (c :: cs) = valFrom (x * 10 + charVal c) cs := by
      simp [valFrom]
    rw [hstep]
    exact le_trans (by omega) (ih (x * 10 + charVal c))

theorem leadingIntGo_spec (l : List Char) :
    ∀ x, valFrom x l ≤ 9223372036854775807 → leadingIntGo x l = some (valFrom x l) := by
  induction l with
  | nil => intro x h; rfl
  | cons c cs ih =>
    intro x h
    have hstep : valFrom x (c :: cs) = valFrom (x * 10 + charVal c) cs := by
      simp [valFrom]
    have hge := valFrom_ge cs (x * 10 + charVal c)
    rw [hstep] at h ⊢
    unfold leadingIntGo
    rw [if_neg (by omega), if_neg (by omega)]
    exact ih _ h

theorem unitNs_cases (u : Char) (hu : isUnitChar u = true) :
    unitNs u = 3600000000000 ∨ unitNs u = 60000000000 ∨ unitNs u = 1000000000 := by
  rcases isUnitChar_cases u hu with h | h | h <;> subst h <;> simp [unitNs]

theorem parseDurationGo_ok (ds : List Char) (u : Char) (hu : isUnitChar u = true)
    (hfit : valDigits ds * unitNs u ≤ 9223372036854775807) :
    parseDurationGo ds u = some (valDigits ds * unitNs u) := by
  have hunit := unitNs_cases u hu
  have hval : valDigits ds ≤ 9223372036854775807 := by
    have h1 : 1 ≤ unitNs u := by rcases hunit with h | h | h <;> omega
    have h2 : valDigits ds * 1 ≤ valDigits ds * unitNs u :=
      Nat.mul_le_mul_left (valDigits ds) h1
    omega
  have hlead := leadingIntGo_spec ds 0 (by rw [show valFrom 0 ds = valDigits ds from rfl]; exact hval)
  rw [show valFrom 0 ds = valDigits ds from rfl] at hlead
  unfold parseDurationGo
  rcases hunit with h | h | h <;> rw [h] at hfit ⊢ <;> simp only [hlead] <;>
    rw [if_neg (by omega), if_neg (by omega), if_neg (by omega)]

theorem mapGet_append (m l2 : RegistryMap) (k : List Char) :
    mapGet (m ++ l2) k = ((mapGet m k).rec (mapGet l2 k) (fun v => some v) : Option Int) := by
  induction m with
  | nil => rfl
  | cons kv rest ih =>
    rcases kv with ⟨k', v'⟩
    by_cases h : k' = k
    · simp [mapGet, h]
    · simp [mapGet, h, ih]

theorem mapSet_absent (m : RegistryMap) (k : List Char) (v : Int) (h : mapGet m k = none) :
    mapSet m k v = m ++ [(k, v)] := by
  induction m with
  | nil => rfl
  | cons kv rest ih =>
    rcases kv with ⟨k', v'⟩
    unfold mapGet at h
    unfold mapSet
    by_cases he : k' = k
    · rw [if_pos he] at h
      cases h
    · rw [if_neg he] at h
      rw [if_neg he, ih h]
      rfl

theorem foldl_mapSet_append (l : RegistryMap) :
    ∀ m, (∀ kv ∈ l, mapGet m kv.1 = none) → (l.map Prod.fst).Nodup →
      l.foldl (fun acc kv => mapSet acc kv.1 kv.2) m = m ++ l := by
  induction l with
  | nil => intro m _ _; simp
  | cons kv rest ih =>
    intro m habs hnd
    rcases kv with ⟨k, v⟩
    have h1 : mapGet m k = none := habs (k, v) (List.mem_cons_self _ _)
    simp only [List.foldl_cons]
    rw [mapSet_absent m k v h1]
    simp only [List.map_cons, List.nodup_cons] at hnd
    rw [ih (m ++ [(k, v)]) ?_ hnd.2]
    · simp
    · intro kv' hkv'
      rw [mapGet_append]
      have h2 : mapGet m kv'.1 = none := habs kv' (List.mem_cons_of_mem _ hkv')
      rw [h2]
      have h3 : ¬k = kv'.1 := by
        intro he
        exact hnd.1 (he ▸ List.mem_map_of_mem Prod.fst hkv')
      simp [mapGet, h3]

theorem mapGet_perm (m1 m2 : RegistryMap) (h : m1.Perm m2)
    (hnd : (m1.map Prod.fst).Nodup) (k : List Char) : mapGet m1 k = mapGet m2 k := by
  induction h with
  | nil => rfl
  | cons x h ih =>
    rcases x with ⟨k', v'⟩
    simp only [List.map_cons, List.nodup_cons] at hnd
    unfold mapGet
    by_cases he : k' = k
    · rw [if_pos he, if_pos he]
    · rw [if_neg he, if_neg he]
      exact ih hnd.2
  | swap x y l =>
    rcases x with ⟨k1, v1⟩
    rcases y with ⟨k2, v2⟩
    simp only [List.map_cons, List.nodup_cons, List.mem_cons] at hnd
    have hne : k2 ≠ k1 := fun he => hnd.1 (Or.inl he)
    simp only [mapGet]
    by_cases h1 : k1 = k <;> by_cases h2 : k2 = k <;> simp_all
  | trans h1 h2 ih1 ih2 =>
    have hnd2 := ((h1.map Prod.fst).nodup_iff).1 hnd
    rw [ih1 hnd, ih2 hnd2]

theorem unmarshalObject_saved (l : RegistryMap)
    (hin : ∀ kv ∈ l, parseRFC3339 (formatRFC3339Nano kv.2) = some kv.2) :
    ∀ m, unmarshalObject m (l.map fun kv => (kv.1, formatRFC3339Nano kv.2)) =
      (l.foldl (fun acc kv => mapSet acc kv.1 kv.2) m, false) := by
  induction l with
  | nil => intro m; rfl
  | cons kv rest ih =>
    intro m
    rcases kv with ⟨k, v⟩
    have h1 := hin (k, v) (List.mem_cons_self _ _)
    simp only [List.map_cons, List.foldl_cons]
    unfold unmarshalObject
    simp only at h1
    rw [h1]
    exact ih (fun kv' hkv' => hin kv' (List.mem_cons_of_mem _ hkv')) (mapSet m k v)

theorem dropLit_some_iff (p : List Char) :
    ∀ s r, dropLit p s = some r ↔ s = p ++ r := by
  induction p with
  | nil =>
    intro s r
    unfold dropLit
    simp
  | cons c cs ih =>
    intro s r
    cases s with
    | nil =>
      unfold dropLit
      simp
    | cons d ds =>
      unfold dropLit
      by_cases h : c = d
      · rw [if_pos h, ih ds r]
        subst h
        simp
      · rw [if_neg h]
        simp only [List.cons_append, List.cons.injEq]
        constructor
        · intro hx; cases hx
        · intro hx; exact absurd hx.1.symm h

theorem dropLit_none_iff (p : List Char) (s : List Char) :
    dropLit p s = none ↔ ¬∃ r, s = p ++ r := by
  constructor
  · rintro h ⟨r, hr⟩
    rw [← dropLit_some_iff p s r] at hr
    rw [h] at hr
    cases hr
  · intro h
    cases hd : dropLit p s with
    | none => rfl
    | some r => exact absurd ⟨r, (dropLit_some_iff p s r).1 hd⟩ h

theorem mapSet_mem (st : RegistryMap) (k : List Char) (v : Int) :
    ∀ kv, kv ∈ mapSet st k v → kv.1 = k ∨ kv ∈ st := by
  induction st with
  | nil =>
    intro kv hkv
    unfold mapSet at hkv
    rw [List.mem_singleton] at hkv
    subst hkv
    exact Or.inl rfl
  | cons p rest ih =>
    intro kv hkv
    rcases p with ⟨k', v'⟩
    unfold mapSet at hkv
    by_cases he : k' = k
    · rw [if_pos he] at hkv
      rcases List.mem_cons.1 hkv with h | h
      · subst h; exact Or.inl he
      · exact Or.inr (List.mem_cons_of_mem _ h)
    · rw [if_neg he] at hkv
      rcases List.mem_cons.1 hkv with h | h
      · subst h; exact Or.inr (List.mem_cons_self _ _)
      · rcases ih kv h with h2 | h2
        · exact Or.inl h2
        · exact Or.inr (List.mem_cons_of_mem _ h2)

theorem parse_ok_keyMatch (s : List Char) (d : Int) (h : parse s = .ok d) :
    ∃ p, keyMatch s = some p := by
  unfold parse at h
  cases hm : keyMatch s with
  | none => rw [hm] at h; cases h
  | some p => exact ⟨p, rfl⟩

theorem applyCheckins_inv (ops : List (List Char × Int)) :
    ∀ st, (∀ kv ∈ st, ∃ d, parse kv.1 = .ok d) →
      ∀ kv ∈ applyCheckins ops st, ∃ d, parse kv.1 = .ok d := by
  induction ops with
  | nil => intro st h kv hkv; exact h kv hkv
  | cons op rest ih =>
    intro st h kv hkv
    unfold applyCheckins at hkv
    rw [List.foldl_cons] at hkv
    refine ih _ ?_ kv hkv
    intro kv' hkv'
    unfold checkinHandler at hkv'
    cases hp : parse op.1 with
    | invalid => rw [hp] at hkv'; exact h kv' hkv'
    | panicked => rw [hp] at hkv'; exact h kv' hkv'
    | ok d =>
      rw [hp] at hkv'
      simp only at hkv'
      rcases mapSet_mem st op.1 op.2 kv' hkv' with h2 | h2
      · exact ⟨d, by rw [h2]; exact hp⟩
      · exact h kv' h2

/-- C1: the status evaluation yields OKAY iff the key has been seen (its
last-seen value is not the absent zero time) and now - lastSeen <= window,
ALARM iff seen and now - lastSeen > window, and NEVER iff lastSeen is absent;
the three verdicts are exhaustive and mutually exclusive (the three
right-hand sides partition all cases), and the boundary now - lastSeen =
window yields OKAY. -/
theorem C1_evaluate_verdict (window lastSeen now : Int) :
    (evaluate window lastSeen now = .OKAY ↔
      lastSeen ≠ goZeroTimeNs ∧ now - lastSeen ≤ window) ∧
    (evaluate window lastSeen now = .ALARM ↔
      lastSeen ≠ goZeroTimeNs ∧ now - lastSeen > window) ∧
    (evaluate window lastSeen now = .NEVER ↔ lastSeen = goZeroTimeNs) ∧
    (lastSeen ≠ goZeroTimeNs → now - lastSeen = window →
      evaluate window lastSeen now = .OKAY) := by
  unfold evaluate
  split_ifs with h1 h2 <;>
    refine ⟨?_, ?_, ?_, ?_⟩ <;> simp_all <;> omega

/-- C1 witness: at the boundary the verdict is OKAY. -/
theorem C1_evaluate_verdict_witness :
    evaluate 3600000000000 0 3600000000000 = .OKAY :=
  (C1_evaluate_verdict 3600000000000 0 3600000000000).2.2.2 (by decide) (by decide)

/-- C2 counterexample: the key x-0h is accepted by the code (the regular
expression digit run may denote zero, which is not a positive integer),
while the claimed pattern with a positive integer magnitude rejects it. -/
theorem C2_counterexample :
    (∃ p, keyMatch "x-0h".data = some p) ∧ specKeyPat true "x-0h".data = false ∧
      parse "x-0h".data = .ok 0 :=
  ⟨⟨("0".data, 'h'), by decide⟩, by decide, by decide⟩

/-- C2 amended: the key parser accepts s iff s is one or more characters from
the class of letters, digits, dot, underscore and dash, followed by a literal
dash, one or more digits (any magnitude, zero included), and a unit in h, m, s
as a true trailing token; on acceptance, whenever the denoted duration fits in
the signed 64-bit nanosecond range, it returns the digit value scaled by the
unit; every non-matching string signals InvalidKey. -/
theorem C2_key_parser_characterization (s : List Char) :
    ((∃ p, keyMatch s = some p) ↔ specKeyPat false s = true) ∧
    (∀ pre ds u, s = pre ++ '-' :: (ds ++ [u]) → pre ≠ [] → pre.all isClassChar = true →
      ds ≠ [] → ds.all Char.isDigit = true → isUnitChar u = true →
      valDigits ds * unitNs u ≤ 9223372036854775807 →
      parse s = .ok ((valDigits ds * unitNs u : Nat) : Int)) ∧
    (keyMatch s = none → parse s = .invalid) := by
  refine ⟨keyMatch_iff_pat s, ?_, ?_⟩
  · intro pre ds u hs hpre hcls hne hdig hu hfit
    rw [hs]
    unfold parse
    simp only [keyMatch_complete pre ds u hpre hcls hne hdig hu,
      parseDurationGo_ok ds u hu hfit]
  · intro h
    unfold parse
    simp only [h]

/-- C2 witness: the valid key backup-24h parses to 24 hours. -/
theorem C2_key_parser_characterization_witness :
    parse "backup-24h".data = .ok ((valDigits "24".data * unitNs 'h' : Nat) : Int) :=
  (C2_key_parser_characterization "backup-24h".data).2.1 "backup".data "24".data 'h'
    (by decide) (by decide) (by decide) (by decide) (by decide) (by decide) (by decide)

/-- C3: for a seen key the status output is the single line
key SP lastSeenRFC3339 SP H h SP M m SP S s SP VERDICT NL, where H, M, S are
the elapsed time rendered in hours, minutes and seconds (each the whole
elapsed duration in that unit, rounded as fmt %.0f does) and the verdict is
OKAY or ALARM by the freshness rule; for a never-seen key the line is exactly
key SP NEVER ALARM NL; the verdict keywords are exactly OKAY, ALARM, NEVER. -/
theorem C3_status_line_format (key : List Char) (dur lastCheckin now : Int) :
    (lastCheckin = goZeroTimeNs →
      printStatus key dur lastCheckin now = key ++ (' ' :: ("NEVER ALARM".data ++ ['\n']))) ∧
    (lastCheckin ≠ goZeroTimeNs →
      ∃ v, printStatus key dur lastCheckin now =
        key ++ ' ' :: (formatRFC3339 lastCheckin ++ ' ' ::
          (fmtF0 (now - lastCheckin) 3600000000000 ++ 'h' :: ' ' ::
            (fmtF0 (now - lastCheckin) 60000000000 ++ 'm' :: ' ' ::
              (fmtF0 (now - lastCheckin) 1000000000 ++ 's' :: ' ' ::
                (verdictWord v ++ ['\n']))))) ∧
        (v = .OKAY ↔ now - lastCheckin ≤ dur) ∧
        (v = .ALARM ↔ now - lastCheckin > dur) ∧ (v = .OKAY ∨ v = .ALARM)) ∧
    verdictWord .OKAY = "OKAY".data ∧ verdictWord .ALARM = "ALARM".data ∧
      verdictWord .NEVER = "NEVER".data := by
  refine ⟨?_, ?_, rfl, rfl, rfl⟩
  · intro h
    unfold printStatus evaluate
    rw [if_pos h]
  · intro h
    unfold printStatus evaluate
    rw [if_neg h]
    by_cases h2 : now - lastCheckin > dur
    · rw [if_pos h2]
      exact ⟨.ALARM, rfl, by simp; omega, by simp [h2], Or.inr rfl⟩
    · rw [if_neg h2]
      exact ⟨.OKAY, rfl, by simp; omega, by simp [h2], Or.inl rfl⟩

/-- C3 witness: a concrete never-seen line and a concrete seen line. -/
theorem C3_status_line_format_witness :
    printStatus "a-1h".data 3600000000000 goZeroTimeNs 0 =
      "a-1h".data ++ (' ' :: ("NEVER ALARM".data ++ ['\n'])) :=
  (C3_status_line_format "a-1h".data 3600000000000 goZeroTimeNs 0).1 rfl

/-- C4: the claim says a malformed durable file leaves the registry empty
with a warning. The code evaluated at a well-formed JSON object whose second
value fails to deserialize keeps the first entry in the registry while
logging that it starts with an empty database: entries from the corrupt file
survive. The absent-file and read-fault conjuncts of the claim hold. -/
theorem C4_load_partial_corrupt :
    load (.okRead (.object
        [("a-1h".data, "2020-01-02T03:04:05Z".data), ("b-1h".data, "x".data)])) =
      .started [("a-1h".data, 1577934245000000000)] .corruptWarn ∧
    load .notExist = .started [] .freshInfo ∧
    load .ioFault = .fatalExit ∧
    load (.okRead .malformedSyntax) = .started [] .corruptWarn :=
  ⟨by decide, rfl, rfl, rfl⟩

/-- C5 counterexample: the absent marker is the zero time.Time, which is
itself the representable timestamp 0001-01-01T00:00:00Z; a registry entry
recorded with exactly that value is indistinguishable from an absent key
(same lookup result as the empty registry, status line NEVER ALARM). -/
theorem C5_counterexample :
    lookupGo [("a-1h".data, goZeroTimeNs)] "a-1h".data = lookupGo [] "a-1h".data ∧
    mapGet [("a-1h".data, goZeroTimeNs)] "a-1h".data = some goZeroTimeNs ∧
    parseRFC3339 "0001-01-01T00:00:00Z".data = some goZeroTimeNs ∧
    statusHandler [("a-1h".data, goZeroTimeNs)] "a-1h".data 0 =
      .body ("a-1h".data ++ (' ' :: ("NEVER ALARM".data ++ ['\n']))) :=
  ⟨rfl, by decide, by decide, by decide⟩

/-- C5 amended: lookup returns the last recorded timestamp when the key is
present and otherwise the zero time.Time (0001-01-01T00:00:00Z UTC) as the
absent marker; that marker is distinct from the Unix epoch zero and from
every non-zero recorded timestamp, but it is itself a representable
timestamp, so an entry holding exactly that value cannot be told apart from
an absent key. -/
theorem C5_lookup_sentinel (st : RegistryMap) (key : List Char) :
    (mapGet st key = none → lookupGo st key = goZeroTimeNs) ∧
    (∀ t, mapGet st key = some t → lookupGo st key = t) ∧
    goZeroTimeNs ≠ 0 ∧
    (∀ t, mapGet st key = some t → t ≠ goZeroTimeNs → lookupGo st key ≠ goZeroTimeNs) := by
  refine ⟨?_, ?_, by decide, ?_⟩
  · intro h
    unfold lookupGo
    rw [h]
    rfl
  · intro t h
    unfold lookupGo
    rw [h]
    rfl
  · intro t h hne
    unfold lookupGo
    rw [h]
    exact hne

/-- C5 witness: on the empty registry the lookup yields the zero-time marker. -/
theorem C5_lookup_sentinel_witness : lookupGo [] "a-1h".data = goZeroTimeNs :=
  (C5_lookup_sentinel [] "a-1h".data).1 rfl

/-- C6: with a configured non-empty secret, authentication passes iff the
presented credential equals the secret exactly: for a bearer header the
credential is the part after the literal Bearer-space tag; a non-empty
header without that tag is the distinct badly-formed-header failure, not an
ordinary rejection; the query parameter is consulted only when no header is
present (the outcome is independent of the query once a header exists); a
wholly missing credential is rejected. -/
theorem C6_auth_characterization (secret hdr query : List Char) (hs : secret ≠ []) :
    (authMiddleware secret [] query = .passed ↔ query = secret) ∧
    (∀ body, authMiddleware secret (bearerTag ++ body) query = .passed ↔ body = secret) ∧
    (hdr ≠ [] → (¬∃ body, hdr = bearerTag ++ body) →
      authMiddleware secret hdr query = .badRequest) ∧
    (hdr ≠ [] → ∀ q1 q2, authMiddleware secret hdr q1 = authMiddleware secret hdr q2) ∧
    authMiddleware secret [] [] = .unauthorized ∧
    AuthResult.badRequest ≠ AuthResult.unauthorized := by
  refine ⟨?_, ?_, ?_, ?_, ?_, by decide⟩
  · unfold authMiddleware constantTimeCompare
    rw [if_pos rfl]
    constructor
    · intro h
      by_cases hq : (secret == query) = true
      · exact (beq_iff_eq.1 hq).symm
      · rw [if_neg hq] at h
        cases h
    · intro h
      subst h
      rw [if_pos (beq_iff_eq.2 rfl)]
  · intro body
    have hne : bearerTag ++ body ≠ [] := by simp [bearerTag]
    unfold authMiddleware constantTimeCompare
    rw [if_neg hne, (dropLit_some_iff bearerTag (bearerTag ++ body) body).2 rfl]
    show (if (secret == body) = true then AuthResult.passed else AuthResult.unauthorized) =
        AuthResult.passed ↔ body = secret
    constructor
    · intro h
      by_cases hq : (secret == body) = true
      · exact (beq_iff_eq.1 hq).symm
      · rw [if_neg hq] at h
        cases h
    · intro h
      subst h
      rw [if_pos (beq_iff_eq.2 rfl)]
  · intro hne hno
    unfold authMiddleware
    rw [if_neg hne, (dropLit_none_iff bearerTag hdr).2 hno]
  · intro hne q1 q2
    unfold authMiddleware
    rw [if_neg hne, if_neg hne]
  · unfold authMiddleware constantTimeCompare
    rw [if_pos rfl, if_neg (by simpa using hs)]

/-- C6 witness: a correct bearer credential passes. -/
theorem C6_auth_characterization_witness :
    authMiddleware "s".data (bearerTag ++ "s".data) [] = .passed :=
  ((C6_auth_characterization "s".data (bearerTag ++ "s".data) [] (by decide)).2.1
    "s".data).2 rfl

/-- C7: a key rejected by the key pattern makes the check-in handler answer
with the invalid-key client error, leave the registry untouched, and trigger
no persistence. -/
theorem C7_checkin_invalid_key (st : RegistryMap) (key : List Char) (now : Int)
    (h : keyMatch key = none) :
    checkinHandler st key now = ⟨.invalidKey, st, false⟩ := by
  unfold checkinHandler parse
  simp only [h]

/-- C7 witness: checking in the suffix-less key x changes nothing. -/
theorem C7_checkin_invalid_key_witness :
    checkinHandler [] "x".data 0 = ⟨.invalidKey, [], false⟩ :=
  C7_checkin_invalid_key [] "x".data 0 (by decide)

/-- C8: for a registry state with distinct keys whose timestamps lie in the
range the serialization format can carry (years 0 to 9999), saving and then
loading yields a clean start with an equal mapping: every key looks up to
the same timestamp, exactly (RFC3339Nano keeps full nanosecond precision). -/
theorem C8_save_load_roundtrip (m : RegistryMap) (hnd : (m.map Prod.fst).Nodup)
    (hrange : ∀ kv ∈ m, tsMin ≤ kv.2 ∧ kv.2 ≤ tsMax) :
    ∃ m', load (.okRead (.object (save m))) = .started m' .cleanLoad ∧
      ∀ k, mapGet m' k = mapGet m k := by
  have hperm : (sortByKey m).Perm m := List.perm_insertionSort _ m
  have hnd' : ((sortByKey m).map Prod.fst).Nodup := ((hperm.map Prod.fst).nodup_iff).2 hnd
  have hin : ∀ kv ∈ sortByKey m, parseRFC3339 (formatRFC3339Nano kv.2) = some kv.2 := by
    intro kv hkv
    have hr := hrange kv (hperm.mem_iff.1 hkv)
    exact parse_format_roundtrip kv.2 hr.1 hr.2
  have hobj := unmarshalObject_saved (sortByKey m) hin []
  have hfold := foldl_mapSet_append (sortByKey m) [] (fun kv _ => rfl) hnd'
  refine ⟨sortByKey m, ?_, fun k => mapGet_perm _ _ hperm hnd' k⟩
  have hload : load (.okRead (.object (save m))) =
      (if (unmarshalObject [] (save m)).2 then
        LoadOutcome.started (unmarshalObject [] (save m)).1 .corruptWarn
      else LoadOutcome.started (unmarshalObject [] (save m)).1 .cleanLoad) := rfl
  rw [hload]
  unfold save
  rw [hobj, hfold]
  simp

/-- C8 witness: a concrete one-entry registry round-trips. -/
theorem C8_save_load_roundtrip_witness :
    ∃ m', load (.okRead (.object (save [("backup-24h".data, 1577934245123400000)]))) =
      .started m' .cleanLoad ∧
      ∀ k, mapGet m' k = mapGet [("backup-24h".data, 1577934245123400000)] k :=
  C8_save_load_roundtrip [("backup-24h".data, 1577934245123400000)] (by decide) (by decide)

/-- C9 counterexample: the key x-3000000h matches the key pattern, yet
time.ParseDuration overflows on 3000000 hours, so must panics: the panic
branch is reachable and parse is not total on accepted keys. -/
theorem C9_counterexample :
    (∃ p, keyMatch "x-3000000h".data = some p) ∧ parse "x-3000000h".data = .panicked :=
  ⟨⟨("3000000".data, 'h'), by decide⟩, by decide⟩

/-- C9 amended: for every accepted key whose captured digit value scaled by
its unit fits in the signed 64-bit nanosecond range, the duration-parsing
step succeeds and parse returns the duration without reaching the panic in
must; accepted keys denoting larger values do reach it. -/
theorem C9_parse_total_within_fit (s ds : List Char) (u : Char)
    (hm : keyMatch s = some (ds, u))
    (hfit : valDigits ds * unitNs u ≤ 9223372036854775807) :
    parse s = .ok ((valDigits ds * unitNs u : Nat) : Int) ∧ parse s ≠ .panicked := by
  have hu : isUnitChar u = true := (keyMatch_sound s ds u hm).choose_spec.2.2.2.2.2
  have hok : parse s = .ok ((valDigits ds * unitNs u : Nat) : Int) := by
    unfold parse
    simp only [hm, parseDurationGo_ok ds u hu hfit]
  exact ⟨hok, by rw [hok]; intro hx; cases hx⟩

/-- C9 witness: backup-24h parses without panicking. -/
theorem C9_parse_total_within_fit_witness :
    parse "backup-24h".data = .ok ((valDigits "24".data * unitNs 'h' : Nat) : Int) ∧
      parse "backup-24h".data ≠ .panicked :=
  C9_parse_total_within_fit "backup-24h".data "24".data 'h' (by decide) (by decide)

/-- C10: starting from the empty registry and applying any sequence of
check-in operations with no disk load, every key present in the registry
parses successfully (hence matches the key pattern), so the listing
operation's parse succeeds for every listed key and its ignored-failure
branch, which would render a zero window, is never taken: the rendered
window equals the key's parsed duration. -/
theorem C10_reachable_keys_wellformed (ops : List (List Char × Int)) :
    ∀ kv ∈ applyCheckins ops [], ∃ d, parse kv.1 = .ok d ∧ listDur kv.1 = d ∧
      specKeyPat false kv.1 = true := by
  intro kv hkv
  obtain ⟨d, hd⟩ := applyCheckins_inv ops [] (fun kv' h => absurd h (by simp)) kv hkv
  refine ⟨d, hd, ?_, ?_⟩
  · unfold listDur
    rw [hd]
  · exact (keyMatch_iff_pat kv.1).1 (parse_ok_keyMatch kv.1 d hd)

/-- C10 witness: after one check-in of backup-24h the stored key is
well-formed and lists with its true window. -/
theorem C10_reachable_keys_wellformed_witness :
    ∃ d, parse "backup-24h".data = .ok d ∧ listDur "backup-24h".data = d ∧
      specKeyPat false "backup-24h".data = true :=
  C10_reachable_keys_wellformed [("backup-24h".data, 5)] ("backup-24h".data, 5) (by decide)
